import Mathlib

/-!
Verification of the symbol-export core of librustc_trans
(src/librustc_trans/back/symbol_export.rs).

The file shallowly embeds the data model and the operations of that source
file: crate-type export thresholds, the reachable-non-generics classifier,
the local exported-symbols table builder, and the upstream-monomorphizations
ownership reduction.  Compiler queries that the source file merely consumes
(reachability set, HIR node kinds, attribute flags, fingerprints, exported
tables of other crates) are modelled as explicit inputs.
-/

namespace SymbolExport

/-- HIR node id (rustc NodeId). -/
abbrev NodeId := Nat

/-- Definition identity (rustc DefId), local crate. -/
abbrev DefId := Nat

/-- Compilation-unit identity (rustc CrateNum). -/
abbrev CrateNum := Nat

/-- Stable fingerprint (rustc Fingerprint), an opaque totally ordered value;
modelled as a natural number, compared with the usual order. -/
abbrev Fingerprint := Nat

/-- The type arguments of a generic instantiation (rustc Substs); modelled as
the list of type-argument identities.  The source test
substs.types().next().is_some() becomes nonemptiness of this list. -/
abbrev Subst := List Nat

/-- SymbolExportLevel from rustc middle: C is linker-visible, Rust is
toolchain-visible. -/
inductive SymbolExportLevel
  | C
  | Rust
deriving DecidableEq, Repr

/-- config::CrateType.  The constructor names mirror CrateTypeExecutable,
CrateTypeStaticlib, CrateTypeProcMacro, CrateTypeCdylib, CrateTypeRlib and
CrateTypeDylib (the third is renamed procMacroCrate here). -/
inductive CrateType
  | executable
  | staticlib
  | procMacroCrate
  | cdylib
  | rlib
  | dylib
deriving DecidableEq, Repr

/-- crate_export_threshold from symbol_export.rs. -/
def crate_export_threshold (crate_type : CrateType) : SymbolExportLevel :=
  match crate_type with
  | CrateType.executable => SymbolExportLevel.C
  | CrateType.staticlib => SymbolExportLevel.C
  | CrateType.procMacroCrate => SymbolExportLevel.C
  | CrateType.cdylib => SymbolExportLevel.C
  | CrateType.rlib => SymbolExportLevel.Rust
  | CrateType.dylib => SymbolExportLevel.Rust

/-- crates_export_threshold from symbol_export.rs. -/
def crates_export_threshold (crate_types : List CrateType) : SymbolExportLevel :=
  if crate_types.any (fun crate_type =>
      crate_export_threshold crate_type == SymbolExportLevel.Rust) then
    SymbolExportLevel.Rust
  else
    SymbolExportLevel.C

/-- Association-list lookup, first match wins (models a hash-map read). -/
def lookupA {α β : Type} [DecidableEq α] : List (α × β) → α → Option β
  | [], _ => none
  | (k, v) :: t, a => if k = a then some v else lookupA t a

/-- Hash-map insert.  Under lookupA (first match wins) a cons at the front has
exactly the replace-existing-entry semantics of HashMap::insert. -/
def insertA {α β : Type} (m : List (α × β)) (k : α) (v : β) : List (α × β) :=
  (k, v) :: m

/-- The entry(k) API of a hash map: rewrite the value at key k with f (f sees
some v when the key is occupied, none when it is vacant). -/
def updateEntry {α β : Type} [DecidableEq α] : List (α × β) → α → (Option β → β) → List (α × β)
  | [], k, f => [(k, f none)]
  | (k2, v) :: t, k, f =>
    if k2 = k then (k, f (some v)) :: t else (k2, v) :: updateEntry t k f

/-- The kinds of HIR node distinguished by reachable_non_generics_provider:
NodeForeignItem, NodeItem(ItemStatic), NodeItem(ItemFn),
NodeImplItem(Method), and everything else. -/
inductive HirNode
  | foreignItem
  | itemStatic
  | itemFn
  | implItemMethod
  | otherNode
deriving DecidableEq, Repr

/-- The inputs (tcx queries and session state) consumed by
reachable_non_generics_provider, made explicit. -/
structure ReachCtx where
  should_trans : Bool
  is_panic_runtime : Bool
  is_compiler_builtins : Bool
  reachable_set : List NodeId
  hir_get : NodeId → HirNode
  local_def_id : NodeId → DefId
  is_statically_included_foreign_item : DefId → Bool
  requires_monomorphization : DefId → Bool
  requires_local : DefId → Bool
  symbol_name : DefId → String
  contains_extern_indicator : DefId → Bool
  rustc_std_internal_symbol : DefId → Bool
  derive_registrar_fn : Option NodeId
  plugin_registrar_fn : Option NodeId

/-- symbol_export_level from symbol_export.rs. -/
def symbol_export_level (ctx : ReachCtx) (sym_def_id : DefId) : SymbolExportLevel :=
  if ctx.contains_extern_indicator sym_def_id = true ∧
      ctx.rustc_std_internal_symbol sym_def_id = false then
    SymbolExportLevel.C
  else
    SymbolExportLevel.Rust

/-- The filter_map closure of reachable_non_generics_provider: which reachable
HIR nodes contribute a DefId to the table. -/
def reachable_filter (ctx : ReachCtx) (node_id : NodeId) : Option DefId :=
  match ctx.hir_get node_id with
  | HirNode.foreignItem =>
    let def_id := ctx.local_def_id node_id
    if ctx.is_statically_included_foreign_item def_id = true then some def_id else none
  | HirNode.itemStatic | HirNode.itemFn | HirNode.implItemMethod =>
    let def_id := ctx.local_def_id node_id
    if ctx.requires_monomorphization def_id = false ∧ ctx.requires_local def_id = false then
      some def_id
    else
      none
  | HirNode.otherNode => none

/-- The map closure of reachable_non_generics_provider: the export level given
to an included DefId (special runtime crates hardwire Rust except for the
three unwind hooks). -/
def export_level_of (ctx : ReachCtx) (def_id : DefId) : SymbolExportLevel :=
  if ctx.is_panic_runtime = true ∨ ctx.is_compiler_builtins = true then
    let name := ctx.symbol_name def_id
    if name = "rust_eh_personality" ∨ name = "rust_eh_register_frames" ∨
        name = "rust_eh_unregister_frames" then
      SymbolExportLevel.C
    else
      SymbolExportLevel.Rust
  else
    symbol_export_level ctx def_id

/-- The collected DefIdMap before the registrar insertions. -/
def reachable_base (ctx : ReachCtx) : List (DefId × SymbolExportLevel) :=
  (ctx.reachable_set.filterMap (reachable_filter ctx)).map
    (fun def_id => (def_id, export_level_of ctx def_id))

/-- reachable_non_generics_provider from symbol_export.rs. -/
def reachable_non_generics_provider (ctx : ReachCtx) : List (DefId × SymbolExportLevel) :=
  if ctx.should_trans = false then [] else
  let with_derive :=
    match ctx.derive_registrar_fn with
    | some id => insertA (reachable_base ctx) (ctx.local_def_id id) SymbolExportLevel.C
    | none => reachable_base ctx
  match ctx.plugin_registrar_fn with
  | some id => insertA with_derive (ctx.local_def_id id) SymbolExportLevel.C
  | none => with_derive

/-- ExportedSymbol from rustc middle: a non-generic definition, a generic
instantiation (definition plus type arguments), or a free-standing synthetic
name. -/
inductive ExportedSymbol
  | nonGeneric (def_id : DefId)
  | generic (def_id : DefId) (substs : Subst)
  | noDefId (symbol_name : String)
deriving DecidableEq, Repr

/-- Lexicographic strict order on type-argument lists. -/
def subst_lt : Subst → Subst → Bool
  | [], [] => false
  | [], _ :: _ => true
  | _ :: _, [] => false
  | a :: as, b :: bs => if a = b then subst_lt as bs else decide (a < b)

/-- Non-strict order on strings, from the linear order on String. -/
def str_le (a b : String) : Bool := decide (a ≤ b)

/-- Lexicographic combination of a strict Bool order on the first component
with a non-strict Bool order on the second. -/
def lex_le {α β : Type} [DecidableEq α] (lt : α → α → Bool) (le2 : β → β → Bool)
    (x y : α × β) : Bool :=
  if x.1 = y.1 then le2 x.2 y.2 else lt x.1 y.1

/-- Strict order on naturals as a Bool. -/
def nat_lt (a b : Nat) : Bool := decide (a < b)

/-- An injective stable key for a symbol record: constructor tag, definition
identity, type arguments, synthetic name. -/
def stable_key (s : ExportedSymbol) : Nat × Nat × Subst × String :=
  match s with
  | ExportedSymbol.nonGeneric def_id => (0, def_id, [], "")
  | ExportedSymbol.generic def_id substs => (1, def_id, substs, "")
  | ExportedSymbol.noDefId name => (2, 0, [], name)

/-- Modelled from the spec: the source sorts the table with
ExportedSymbol::compare_stable, a cross-unit-stable total order on symbol
identities defined in rustc middle (code not part of this repository slice).
The spec only requires a fixed, deterministic, cross-unit-stable total
comparator, so we model it as the lexicographic order on an injective stable
key. -/
def compare_stable (a b : ExportedSymbol) : Bool :=
  lex_le nat_lt (lex_le nat_lt (lex_le subst_lt str_le)) (stable_key a) (stable_key b)

/-- The sort comparator of exported_symbols_provider_local, which compares
records by their symbol identity alone. -/
def record_le (a b : ExportedSymbol × SymbolExportLevel) : Bool :=
  compare_stable a.1 b.1

/-- Linkage of a compiled mono item; the source only distinguishes External
from everything else. -/
inductive Linkage
  | external
  | internal
deriving DecidableEq, Repr

/-- Visibility of a compiled mono item. -/
inductive Visibility
  | defaultVis
  | hidden
  | protectedVis
deriving DecidableEq, Repr

/-- A mono item of a codegen unit: an instantiated function item
(MonoItem::Fn with InstanceDef::Item) or any other kind of item. -/
inductive MonoItemDef
  | fnItem (def_id : DefId) (substs : Subst)
  | otherItem
deriving DecidableEq, Repr

/-- One (mono_item, (linkage, visibility)) record of a codegen unit. -/
structure CguItem where
  item : MonoItemDef
  linkage : Linkage
  visibility : Visibility
deriving DecidableEq, Repr

/-- The inputs consumed by exported_symbols_provider_local, made explicit.
metadata_symbol_name and the codegen-unit contents are opaque inputs computed
elsewhere in the compiler. -/
structure ExpCtx where
  reach : ReachCtx
  entry_fn : Bool
  allocator_kind : Bool
  pgo_gen : Bool
  crate_types : List CrateType
  metadata_symbol_name : String
  share_generics : Bool
  local_crate_exports_generics : Bool
  dynamic_linking : Bool
  only_cdylib : Bool
  cgus : List (List CguItem)

/-- Modelled from the spec: ALLOCATOR_METHODS comes from rustc_allocator (code
not part of this repository slice); the spec names the four allocator
operations alloc, dealloc, realloc and alloc-zeroed. -/
def ALLOCATOR_METHODS : List String := ["alloc", "dealloc", "realloc", "alloc_zeroed"]

/-- PROFILER_WEAK_SYMBOLS from symbol_export.rs. -/
def PROFILER_WEAK_SYMBOLS : List String :=
  ["__llvm_profile_raw_version", "__llvm_profile_filename"]

/-- The generic-instantiation records pushed when share_generics is active:
for every codegen-unit item, keep instantiated function items with external
linkage, not hidden when visibility is required, and with at least one type
argument. -/
def generic_symbols_of_cgus (ectx : ExpCtx) : List (ExportedSymbol × SymbolExportLevel) :=
  let need_visibility := ectx.dynamic_linking = true ∧ ectx.only_cdylib = false
  (ectx.cgus.flatMap id).filterMap (fun cgu_item =>
    if cgu_item.linkage ≠ Linkage.external then none
    else if need_visibility ∧ cgu_item.visibility = Visibility.hidden then none
    else
      match cgu_item.item with
      | MonoItemDef.fnItem def_id substs =>
        if substs.isEmpty = false then
          some (ExportedSymbol.generic def_id substs, SymbolExportLevel.Rust)
        else none
      | MonoItemDef.otherItem => none)

/-- The "main" entry-point record, pushed when the session has an entry
function. -/
def entry_symbols (ectx : ExpCtx) : List (ExportedSymbol × SymbolExportLevel) :=
  if ectx.entry_fn = true then
    [(ExportedSymbol.noDefId "main", SymbolExportLevel.C)]
  else []

/-- The synthetic allocator records, pushed when the session requests an
allocator. -/
def allocator_symbols (ectx : ExpCtx) : List (ExportedSymbol × SymbolExportLevel) :=
  if ectx.allocator_kind = true then
    ALLOCATOR_METHODS.map (fun method =>
      (ExportedSymbol.noDefId ("__rust_" ++ method), SymbolExportLevel.Rust))
  else []

/-- The weak profiler records, pushed when pgo-gen is active. -/
def pgo_symbols (ectx : ExpCtx) : List (ExportedSymbol × SymbolExportLevel) :=
  if ectx.pgo_gen = true then
    PROFILER_WEAK_SYMBOLS.map (fun sym => (ExportedSymbol.noDefId sym, SymbolExportLevel.C))
  else []

/-- The metadata record, pushed when a Rust dylib is among the crate types. -/
def metadata_symbols (ectx : ExpCtx) : List (ExportedSymbol × SymbolExportLevel) :=
  if CrateType.dylib ∈ ectx.crate_types then
    [(ExportedSymbol.noDefId ectx.metadata_symbol_name, SymbolExportLevel.Rust)]
  else []

/-- The shared-generics records, pushed when generics sharing is active and
the local crate exports generics. -/
def shared_generics_symbols (ectx : ExpCtx) : List (ExportedSymbol × SymbolExportLevel) :=
  if ectx.share_generics = true ∧ ectx.local_crate_exports_generics = true then
    generic_symbols_of_cgus ectx
  else []

/-- The symbol vector of exported_symbols_provider_local before the final
sort: the reachable non-generics followed by the conditional synthetic pushes,
in source order. -/
def assemble_symbols (ectx : ExpCtx) : List (ExportedSymbol × SymbolExportLevel) :=
  (reachable_non_generics_provider ectx.reach).map
      (fun p => (ExportedSymbol.nonGeneric p.1, p.2))
    ++ entry_symbols ectx
    ++ allocator_symbols ectx
    ++ pgo_symbols ectx
    ++ metadata_symbols ectx
    ++ shared_generics_symbols ectx

/-- exported_symbols_provider_local from symbol_export.rs: empty when not
translating, otherwise the assembled records sorted by the stable
comparator. -/
def exported_symbols_provider_local (ectx : ExpCtx) :
    List (ExportedSymbol × SymbolExportLevel) :=
  if ectx.reach.should_trans = false then [] else
  (assemble_symbols ectx).mergeSort record_le

/-- The upstream-monomorphizations registry: per definition, a map from type
arguments to the owning crate (DefIdMap of FxHashMap in the source). -/
abbrev Registry := List (DefId × List (Subst × CrateNum))

/-- The Occupied/Vacant entry branch of upstream_monomorphizations_provider:
the new owner of a key given the current crate and the present owner.  The
crate scanned now replaces the present owner exactly when the present owner
has the strictly greater stable fingerprint. -/
def owner_update (fp : CrateNum → Fingerprint) (cnum : CrateNum) :
    Option CrateNum → CrateNum
  | none => cnum
  | some other_cnum => if fp other_cnum > fp cnum then cnum else other_cnum

/-- Register one generic instantiation exported by crate cnum. -/
def register_generic (fp : CrateNum → Fingerprint) (cnum : CrateNum) (m : Registry)
    (def_id : DefId) (substs : Subst) : Registry :=
  updateEntry m def_id (fun inner =>
    updateEntry (inner.getD []) substs (owner_update fp cnum))

/-- Process one (crate, exported record) pair: only Generic records are
registered. -/
def handle_entry (fp : CrateNum → Fingerprint) (m : Registry)
    (ce : CrateNum × (ExportedSymbol × SymbolExportLevel)) : Registry :=
  match ce.2.1 with
  | ExportedSymbol.generic def_id substs => register_generic fp ce.1 m def_id substs
  | _ => m

/-- upstream_monomorphizations_provider from symbol_export.rs.  cnums is
all_crate_nums, exported gives each crate's exported-symbols table, and fp is
the cnum_stable_ids table (the stable fingerprint of each crate's root,
computed from def_path_hash in the source). -/
def upstream_monomorphizations_provider (cnums : List CrateNum)
    (exported : CrateNum → List (ExportedSymbol × SymbolExportLevel))
    (fp : CrateNum → Fingerprint) : Registry :=
  cnums.foldl (fun m cnum =>
    (exported cnum).foldl (fun m2 p => handle_entry fp m2 (cnum, p)) m) []

/-- Read the owner of one (definition, type arguments) key in the registry. -/
def lookupOwner (m : Registry) (def_id : DefId) (substs : Subst) : Option CrateNum :=
  match lookupA m def_id with
  | none => none
  | some substs_map => lookupA substs_map substs

/-- upstream_monomorphizations_for_provider from symbol_export.rs: a pure map
read in the precomputed registry. -/
def upstream_monomorphizations_for_provider (m : Registry) (def_id : DefId) :
    Option (List (Subst × CrateNum)) :=
  lookupA m def_id

/-- All (crate, exported record) pairs of the scan, in scan order. -/
def flat_entries (cnums : List CrateNum)
    (exported : CrateNum → List (ExportedSymbol × SymbolExportLevel)) :
    List (CrateNum × (ExportedSymbol × SymbolExportLevel)) :=
  cnums.flatMap (fun cnum => (exported cnum).map (fun p => (cnum, p)))

/-- The crate of one scan entry when the entry is the Generic record with the
given key. -/
def key_entry_crate (def_id : DefId) (substs : Subst)
    (ce : CrateNum × (ExportedSymbol × SymbolExportLevel)) : Option CrateNum :=
  match ce.2.1 with
  | ExportedSymbol.generic d2 s2 =>
    if d2 = def_id ∧ s2 = substs then some ce.1 else none
  | _ => none

/-- Does this scan entry carry a Generic record of the given definition (any
type arguments)? -/
def entry_mentions_def (def_id : DefId)
    (ce : CrateNum × (ExportedSymbol × SymbolExportLevel)) : Bool :=
  match ce.2.1 with
  | ExportedSymbol.generic d2 _ => d2 == def_id
  | _ => false

/-- The crates registering the given key during the scan, in scan order and
with one occurrence per matching table record. -/
def key_occurrences (cnums : List CrateNum)
    (exported : CrateNum → List (ExportedSymbol × SymbolExportLevel))
    (def_id : DefId) (substs : Subst) : List CrateNum :=
  (flat_entries cnums exported).filterMap (key_entry_crate def_id substs)

/-- Does this crate's table export the generic instantiation key? -/
def exports_generic_key
    (exported : CrateNum → List (ExportedSymbol × SymbolExportLevel))
    (cnum : CrateNum) (def_id : DefId) (substs : Subst) : Bool :=
  (exported cnum).any (fun p =>
    match p.1 with
    | ExportedSymbol.generic d2 s2 => d2 == def_id && s2 == substs
    | _ => false)

/-- Does this crate's table export any generic instantiation of the
definition? -/
def exports_generic_of
    (exported : CrateNum → List (ExportedSymbol × SymbolExportLevel))
    (cnum : CrateNum) (def_id : DefId) : Bool :=
  (exported cnum).any (fun p =>
    match p.1 with
    | ExportedSymbol.generic d2 _ => d2 == def_id
    | _ => false)

/-- Is this record one of the synthetic allocator symbols (a free-standing
name of the form "__rust_" ++ operation)? -/
def is_allocator_record (p : ExportedSymbol × SymbolExportLevel) : Bool :=
  match p.1 with
  | ExportedSymbol.noDefId name => ALLOCATOR_METHODS.any (fun m => "__rust_" ++ m == name)
  | _ => false

/-- Is this record a NonGeneric (reachable definition) record? -/
def is_non_generic_record (p : ExportedSymbol × SymbolExportLevel) : Bool :=
  match p.1 with
  | ExportedSymbol.nonGeneric _ => true
  | _ => false

/-- A small ordinary (non-runtime) unit with a derive registrar, used to
evaluate the classifier on concrete input. -/
def ctxW1 : ReachCtx where
  should_trans := true
  is_panic_runtime := false
  is_compiler_builtins := false
  reachable_set := [0, 1]
  hir_get := fun _ => HirNode.itemFn
  local_def_id := fun n => n
  is_statically_included_foreign_item := fun _ => false
  requires_monomorphization := fun _ => false
  requires_local := fun _ => false
  symbol_name := fun _ => "f"
  contains_extern_indicator := fun _ => false
  rustc_std_internal_symbol := fun _ => false
  derive_registrar_fn := some 5
  plugin_registrar_fn := none

/-- A small runtime-support unit (panic runtime): definition 0 is the
personality routine, definition 1 an ordinary item. -/
def ctxW2 : ReachCtx where
  should_trans := true
  is_panic_runtime := true
  is_compiler_builtins := false
  reachable_set := [0, 1]
  hir_get := fun _ => HirNode.itemFn
  local_def_id := fun n => n
  is_statically_included_foreign_item := fun _ => false
  requires_monomorphization := fun _ => false
  requires_local := fun _ => false
  symbol_name := fun d => if d = 0 then "rust_eh_personality" else "frob"
  contains_extern_indicator := fun _ => true
  rustc_std_internal_symbol := fun _ => false
  derive_registrar_fn := none
  plugin_registrar_fn := none

/-- A small unit whose only reachable item (definition 0) is generic. -/
def ctxW3 : ReachCtx where
  should_trans := true
  is_panic_runtime := false
  is_compiler_builtins := false
  reachable_set := [0]
  hir_get := fun _ => HirNode.itemFn
  local_def_id := fun n => n
  is_statically_included_foreign_item := fun _ => false
  requires_monomorphization := fun d => d == 0
  requires_local := fun _ => false
  symbol_name := fun _ => "g"
  contains_extern_indicator := fun _ => false
  rustc_std_internal_symbol := fun _ => false
  derive_registrar_fn := none
  plugin_registrar_fn := none

/-- A small unit whose only reachable item (definition 0) is a foreign item
that is not statically included. -/
def ctxW4 : ReachCtx where
  should_trans := true
  is_panic_runtime := false
  is_compiler_builtins := false
  reachable_set := [0]
  hir_get := fun _ => HirNode.foreignItem
  local_def_id := fun n => n
  is_statically_included_foreign_item := fun _ => false
  requires_monomorphization := fun _ => false
  requires_local := fun _ => false
  symbol_name := fun _ => "h"
  contains_extern_indicator := fun _ => true
  rustc_std_internal_symbol := fun _ => false
  derive_registrar_fn := none
  plugin_registrar_fn := none

/-- An export-table context over ctxW1 that requests an allocator. -/
def ectxW1 : ExpCtx where
  reach := ctxW1
  entry_fn := true
  allocator_kind := true
  pgo_gen := false
  crate_types := [CrateType.dylib]
  metadata_symbol_name := "rust_metadata_m"
  share_generics := false
  local_crate_exports_generics := false
  dynamic_linking := false
  only_cdylib := false
  cgus := []

/-- An export-table context over the generic-only unit ctxW3. -/
def ectxW3 : ExpCtx where
  reach := ctxW3
  entry_fn := false
  allocator_kind := false
  pgo_gen := false
  crate_types := [CrateType.rlib]
  metadata_symbol_name := "rust_metadata_m"
  share_generics := true
  local_crate_exports_generics := true
  dynamic_linking := false
  only_cdylib := false
  cgus := [[{ item := MonoItemDef.fnItem 0 [7], linkage := Linkage.external,
              visibility := Visibility.defaultVis }]]

/-- A two-crate link in which both crates export the same generic
instantiation key (definition 0 at type arguments [0]). -/
def exW : CrateNum → List (ExportedSymbol × SymbolExportLevel) :=
  fun _ => [(ExportedSymbol.generic 0 [0], SymbolExportLevel.Rust)]

theorem lookupA_updateEntry_self {α β : Type} [DecidableEq α]
    (m : List (α × β)) (k : α) (f : Option β → β) :
    lookupA (updateEntry m k f) k = some (f (lookupA m k)) := by
  induction m with
  | nil => simp [updateEntry, lookupA]
  | cons p t ih =>
    obtain ⟨k2, v⟩ := p
    by_cases h : k2 = k
    · subst h
      simp [updateEntry, lookupA]
    · simp [updateEntry, lookupA, h, ih]

theorem lookupA_updateEntry_ne {α β : Type} [DecidableEq α]
    (m : List (α × β)) (k k2 : α) (f : Option β → β) (h : k2 ≠ k) :
    lookupA (updateEntry m k f) k2 = lookupA m k2 := by
  have h2 : k ≠ k2 := Ne.symm h
  induction m with
  | nil => simp [updateEntry, lookupA, h2]
  | cons p t ih =>
    obtain ⟨k3, v⟩ := p
    by_cases h3 : k3 = k
    · subst h3
      simp [updateEntry, lookupA, h2]
    · simp [updateEntry, lookupA, h3, ih]

theorem lookupA_eq_none_iff {α β : Type} [DecidableEq α] (m : List (α × β)) (k : α) :
    lookupA m k = none ↔ ∀ p ∈ m, p.1 ≠ k := by
  induction m with
  | nil => simp [lookupA]
  | cons p t ih =>
    obtain ⟨k2, v⟩ := p
    by_cases h : k2 = k
    · subst h
      simp [lookupA]
    · simp [lookupA, h, ih]

theorem lookupA_isSome_of_mem {α β : Type} [DecidableEq α]
    {m : List (α × β)} {k : α} {v : β} (h : (k, v) ∈ m) :
    (lookupA m k).isSome = true := by
  induction m with
  | nil => cases h
  | cons p t ih =>
    obtain ⟨k2, v2⟩ := p
    by_cases h2 : k2 = k
    · simp [lookupA, h2]
    · rcases List.mem_cons.mp h with he | ht
      · cases he; simp at h2
      · simp [lookupA, h2, ih ht]

theorem lookupA_map_fun {α β : Type} [DecidableEq α] (l : List α) (g : α → β) (k : α) :
    lookupA (l.map (fun x => (x, g x))) k = if k ∈ l then some (g k) else none := by
  induction l with
  | nil => simp [lookupA]
  | cons a t ih =>
    by_cases h : a = k
    · subst h
      simp [lookupA]
    · have h2 : ¬ k = a := fun he => h he.symm
      simp [lookupA, h, ih, List.mem_cons, h2]

theorem crate_export_threshold_eq_rust_iff (crate_type : CrateType) :
    crate_export_threshold crate_type = SymbolExportLevel.Rust ↔
      (crate_type = CrateType.rlib ∨ crate_type = CrateType.dylib) := by
  cases crate_type <;> simp [crate_export_threshold]

/-- C4: the unit's export threshold is ToolchainVisible (Rust) exactly when
some requested crate type is an rlib or a Rust dylib, and LinkerVisible (C)
otherwise (executable, staticlib, cdylib, proc-macro). -/
theorem C4_crates_export_threshold_rule (crate_types : List CrateType) :
    (crates_export_threshold crate_types = SymbolExportLevel.Rust ↔
      (CrateType.rlib ∈ crate_types ∨ CrateType.dylib ∈ crate_types)) ∧
    (crates_export_threshold crate_types = SymbolExportLevel.C ↔
      ¬ (CrateType.rlib ∈ crate_types ∨ CrateType.dylib ∈ crate_types)) := by
  have hany : (crate_types.any (fun crate_type =>
      crate_export_threshold crate_type == SymbolExportLevel.Rust) = true) ↔
      (CrateType.rlib ∈ crate_types ∨ CrateType.dylib ∈ crate_types) := by
    rw [List.any_eq_true]
    constructor
    · rintro ⟨ct, hct, hr⟩
      rw [beq_iff_eq] at hr
      rcases (crate_export_threshold_eq_rust_iff ct).mp hr with h | h
      · exact Or.inl (h ▸ hct)
      · exact Or.inr (h ▸ hct)
    · rintro (h | h)
      · exact ⟨CrateType.rlib, h, by simp [crate_export_threshold]⟩
      · exact ⟨CrateType.dylib, h, by simp [crate_export_threshold]⟩
  unfold crates_export_threshold
  by_cases h : (crate_types.any (fun crate_type =>
      crate_export_threshold crate_type == SymbolExportLevel.Rust) = true)
  · simp [h, hany.mp h]
  · have := (not_iff_not.mpr hany).mp h
    simp [h, this]

/-- C4 witness: a unit with crate types [rlib] instantiates the rule. -/
theorem C4_crates_export_threshold_rule_witness :
    (crates_export_threshold [CrateType.rlib] = SymbolExportLevel.Rust ↔
      (CrateType.rlib ∈ [CrateType.rlib] ∨ CrateType.dylib ∈ [CrateType.rlib])) ∧
    (crates_export_threshold [CrateType.rlib] = SymbolExportLevel.C ↔
      ¬ (CrateType.rlib ∈ [CrateType.rlib] ∨ CrateType.dylib ∈ [CrateType.rlib])) :=
  C4_crates_export_threshold_rule [CrateType.rlib]

theorem reachable_filter_eq_some_iff (ctx : ReachCtx) (n : NodeId) (d : DefId) :
    reachable_filter ctx n = some d ↔
      (ctx.local_def_id n = d ∧
        ((ctx.hir_get n = HirNode.foreignItem ∧
          ctx.is_statically_included_foreign_item (ctx.local_def_id n) = true) ∨
         ((ctx.hir_get n = HirNode.itemStatic ∨ ctx.hir_get n = HirNode.itemFn ∨
           ctx.hir_get n = HirNode.implItemMethod) ∧
          ctx.requires_monomorphization (ctx.local_def_id n) = false ∧
          ctx.requires_local (ctx.local_def_id n) = false))) := by
  cases hh : ctx.hir_get n with
  | foreignItem =>
    by_cases hb : ctx.is_statically_included_foreign_item (ctx.local_def_id n) = true
    · simp [reachable_filter, hh, hb]
    · simp [reachable_filter, hh, hb]
  | itemStatic =>
    by_cases hb : ctx.requires_monomorphization (ctx.local_def_id n) = false ∧
        ctx.requires_local (ctx.local_def_id n) = false
    · simp [reachable_filter, hh, hb]
    · simp only [reachable_filter, hh, if_neg hb]
      simp [hb]
  | itemFn =>
    by_cases hb : ctx.requires_monomorphization (ctx.local_def_id n) = false ∧
        ctx.requires_local (ctx.local_def_id n) = false
    · simp [reachable_filter, hh, hb]
    · simp only [reachable_filter, hh, if_neg hb]
      simp [hb]
  | implItemMethod =>
    by_cases hb : ctx.requires_monomorphization (ctx.local_def_id n) = false ∧
        ctx.requires_local (ctx.local_def_id n) = false
    · simp [reachable_filter, hh, hb]
    · simp only [reachable_filter, hh, if_neg hb]
      simp [hb]
  | otherNode => simp [reachable_filter, hh]

theorem lookupA_reachable_base (ctx : ReachCtx) (d : DefId) :
    lookupA (reachable_base ctx) d =
      if d ∈ ctx.reachable_set.filterMap (reachable_filter ctx)
      then some (export_level_of ctx d) else none :=
  lookupA_map_fun _ _ _

theorem lookupA_provider_eq_base (ctx : ReachCtx) (d : DefId)
    (htrans : ctx.should_trans = true)
    (hderive : ∀ id, ctx.derive_registrar_fn = some id → ctx.local_def_id id ≠ d)
    (hplugin : ∀ id, ctx.plugin_registrar_fn = some id → ctx.local_def_id id ≠ d) :
    lookupA (reachable_non_generics_provider ctx) d = lookupA (reachable_base ctx) d := by
  unfold reachable_non_generics_provider
  rw [htrans]
  cases hp : ctx.plugin_registrar_fn with
  | some id2 =>
    cases hd : ctx.derive_registrar_fn with
    | some id3 => simp [insertA, lookupA, hplugin id2 hp, hderive id3 hd]
    | none => simp [insertA, lookupA, hplugin id2 hp]
  | none =>
    cases hd : ctx.derive_registrar_fn with
    | some id3 => simp [insertA, lookupA, hderive id3 hd]
    | none => simp

theorem lookupA_provider_level (ctx : ReachCtx) (d : DefId) (lvl : SymbolExportLevel)
    (hderive : ∀ id, ctx.derive_registrar_fn = some id → ctx.local_def_id id ≠ d)
    (hplugin : ∀ id, ctx.plugin_registrar_fn = some id → ctx.local_def_id id ≠ d)
    (hlook : lookupA (reachable_non_generics_provider ctx) d = some lvl) :
    lvl = export_level_of ctx d := by
  by_cases htrans : ctx.should_trans = true
  · rw [lookupA_provider_eq_base ctx d htrans hderive hplugin, lookupA_reachable_base] at hlook
    by_cases hmem : d ∈ ctx.reachable_set.filterMap (reachable_filter ctx)
    · rw [if_pos hmem] at hlook
      exact (Option.some.inj hlook).symm
    · rw [if_neg hmem] at hlook
      cases hlook
  · have hfalse : ctx.should_trans = false := by
      cases hsc : ctx.should_trans
      · rfl
      · exact absurd hsc htrans
    unfold reachable_non_generics_provider at hlook
    rw [hfalse] at hlook
    simp [lookupA] at hlook

/-- C10: a derive (proc-macro) or plugin registrar function is present in the
reachable-non-generics table at level C, whatever the classification pass
would have assigned and whether or not it was in the filtered reachable
set. -/
theorem C10_registrar_forced_linker_visible (ctx : ReachCtx) (id : NodeId)
    (htrans : ctx.should_trans = true)
    (hreg : ctx.derive_registrar_fn = some id ∨ ctx.plugin_registrar_fn = some id) :
    lookupA (reachable_non_generics_provider ctx) (ctx.local_def_id id)
      = some SymbolExportLevel.C := by
  unfold reachable_non_generics_provider
  rw [htrans]
  rcases hreg with h | h
  · cases hp : ctx.plugin_registrar_fn with
    | none => simp [h, hp, insertA, lookupA]
    | some id2 =>
      by_cases he : ctx.local_def_id id2 = ctx.local_def_id id <;>
        simp [h, hp, insertA, lookupA, he]
  · simp [h, insertA, lookupA]

/-- C10 witness: the derive registrar (node 5) of the concrete unit ctxW1 is
in the table at level C. -/
theorem C10_registrar_forced_linker_visible_witness :
    lookupA (reachable_non_generics_provider ctxW1) (ctxW1.local_def_id 5)
      = some SymbolExportLevel.C :=
  C10_registrar_forced_linker_visible ctxW1 5 rfl (Or.inl rfl)

/-- C5: in a runtime-support unit (panic runtime or compiler builtins), a
definition present in the reachable-non-generics table (not a registrar) is
classified C exactly when its symbol name is one of the three unwind hooks,
and Rust otherwise. -/
theorem C5_runtime_crate_classification (ctx : ReachCtx) (d : DefId)
    (lvl : SymbolExportLevel)
    (hspecial : ctx.is_panic_runtime = true ∨ ctx.is_compiler_builtins = true)
    (hderive : ∀ id, ctx.derive_registrar_fn = some id → ctx.local_def_id id ≠ d)
    (hplugin : ∀ id, ctx.plugin_registrar_fn = some id → ctx.local_def_id id ≠ d)
    (hlook : lookupA (reachable_non_generics_provider ctx) d = some lvl) :
    lvl = if ctx.symbol_name d ∈
        ["rust_eh_personality", "rust_eh_register_frames", "rust_eh_unregister_frames"]
      then SymbolExportLevel.C else SymbolExportLevel.Rust := by
  rw [lookupA_provider_level ctx d lvl hderive hplugin hlook]
  simp [export_level_of, hspecial, List.mem_cons]

/-- C5 witness: in the concrete panic-runtime unit ctxW2, definition 0 (the
personality routine) is at level C and the rule instance holds. -/
theorem C5_runtime_crate_classification_witness :
    SymbolExportLevel.C = if ctxW2.symbol_name 0 ∈
        ["rust_eh_personality", "rust_eh_register_frames", "rust_eh_unregister_frames"]
      then SymbolExportLevel.C else SymbolExportLevel.Rust :=
  C5_runtime_crate_classification ctxW2 0 SymbolExportLevel.C (Or.inl rfl)
    (fun id h => Option.noConfusion h) (fun id h => Option.noConfusion h)
    (by decide)

/-- C7: a reachable foreign-declared item is present in the
reachable-non-generics table exactly when its definition is statically
included in this unit's output. -/
theorem C7_foreign_item_iff_statically_included (ctx : ReachCtx) (n : NodeId) (d : DefId)
    (htrans : ctx.should_trans = true)
    (hn : n ∈ ctx.reachable_set)
    (hforeign : ctx.hir_get n = HirNode.foreignItem)
    (hd : ctx.local_def_id n = d)
    (hall : ∀ n2 ∈ ctx.reachable_set, ctx.local_def_id n2 = d →
      ctx.hir_get n2 = HirNode.foreignItem)
    (hderive : ∀ id, ctx.derive_registrar_fn = some id → ctx.local_def_id id ≠ d)
    (hplugin : ∀ id, ctx.plugin_registrar_fn = some id → ctx.local_def_id id ≠ d) :
    (lookupA (reachable_non_generics_provider ctx) d).isSome
      = ctx.is_statically_included_foreign_item d := by
  rw [lookupA_provider_eq_base ctx d htrans hderive hplugin, lookupA_reachable_base]
  cases hb : ctx.is_statically_included_foreign_item d with
  | true =>
    have hfil : reachable_filter ctx n = some d := by
      rw [reachable_filter_eq_some_iff]
      exact ⟨hd, Or.inl ⟨hforeign, by rw [hd]; exact hb⟩⟩
    have hmem : d ∈ ctx.reachable_set.filterMap (reachable_filter ctx) :=
      List.mem_filterMap.mpr ⟨n, hn, hfil⟩
    simp [hmem]
  | false =>
    have hmem : d ∉ ctx.reachable_set.filterMap (reachable_filter ctx) := by
      intro hmem
      obtain ⟨n2, hn2, hfil⟩ := List.mem_filterMap.mp hmem
      rw [reachable_filter_eq_some_iff] at hfil
      obtain ⟨hd2, hcase⟩ := hfil
      rcases hcase with ⟨_, hincl⟩ | ⟨hkind, _, _⟩
      · rw [hd2, hb] at hincl
        cases hincl
      · have := hall n2 hn2 hd2
        rcases hkind with h | h | h <;> rw [this] at h <;> cases h
    simp [hmem]

/-- C7 witness: in ctxW4 the reachable foreign item 0 is not statically
included and is absent from the table. -/
theorem C7_foreign_item_iff_statically_included_witness :
    (lookupA (reachable_non_generics_provider ctxW4) 0).isSome
      = ctxW4.is_statically_included_foreign_item 0 :=
  C7_foreign_item_iff_statically_included ctxW4 0 0 rfl (by decide) rfl rfl
    (by decide) (fun id h => Option.noConfusion h) (fun id h => Option.noConfusion h)

theorem mem_entry_symbols (ectx : ExpCtx) (p : ExportedSymbol × SymbolExportLevel)
    (h : p ∈ entry_symbols ectx) :
    p = (ExportedSymbol.noDefId "main", SymbolExportLevel.C) := by
  unfold entry_symbols at h
  split at h
  · simpa using h
  · simp at h

theorem mem_allocator_symbols (ectx : ExpCtx) (p : ExportedSymbol × SymbolExportLevel)
    (h : p ∈ allocator_symbols ectx) :
    ∃ m ∈ ALLOCATOR_METHODS,
      p = (ExportedSymbol.noDefId ("__rust_" ++ m), SymbolExportLevel.Rust) := by
  unfold allocator_symbols at h
  split at h
  · obtain ⟨m, hm, he⟩ := List.mem_map.mp h
    exact ⟨m, hm, he.symm⟩
  · simp at h

theorem mem_pgo_symbols (ectx : ExpCtx) (p : ExportedSymbol × SymbolExportLevel)
    (h : p ∈ pgo_symbols ectx) :
    ∃ s ∈ PROFILER_WEAK_SYMBOLS, p = (ExportedSymbol.noDefId s, SymbolExportLevel.C) := by
  unfold pgo_symbols at h
  split at h
  · obtain ⟨s, hs, he⟩ := List.mem_map.mp h
    exact ⟨s, hs, he.symm⟩
  · simp at h

theorem mem_metadata_symbols (ectx : ExpCtx) (p : ExportedSymbol × SymbolExportLevel)
    (h : p ∈ metadata_symbols ectx) :
    p = (ExportedSymbol.noDefId ectx.metadata_symbol_name, SymbolExportLevel.Rust) := by
  unfold metadata_symbols at h
  split at h
  · simpa using h
  · simp at h

theorem mem_generic_symbols_shape (ectx : ExpCtx) (p : ExportedSymbol × SymbolExportLevel)
    (h : p ∈ generic_symbols_of_cgus ectx) :
    ∃ def_id substs, p = (ExportedSymbol.generic def_id substs, SymbolExportLevel.Rust) := by
  unfold generic_symbols_of_cgus at h
  obtain ⟨cgu_item, _, hsome⟩ := List.mem_filterMap.mp h
  split at hsome
  · cases hsome
  · split at hsome
    · cases hsome
    · split at hsome
      · split at hsome
        · exact ⟨_, _, (Option.some.inj hsome).symm⟩
        · cases hsome
      · cases hsome

theorem mem_shared_generics_symbols (ectx : ExpCtx) (p : ExportedSymbol × SymbolExportLevel)
    (h : p ∈ shared_generics_symbols ectx) :
    ∃ def_id substs, p = (ExportedSymbol.generic def_id substs, SymbolExportLevel.Rust) := by
  unfold shared_generics_symbols at h
  split at h
  · exact mem_generic_symbols_shape ectx p h
  · simp at h

/-- C6: a reachable definition that is generic or must be instantiated at
each use site is absent from the reachable-non-generics table, and no
NonGeneric record for it appears in the unit's export table. -/
theorem C6_generic_or_local_excluded (ctx : ReachCtx) (d : DefId)
    (hkind : ∀ n ∈ ctx.reachable_set, ctx.local_def_id n = d →
      (ctx.hir_get n = HirNode.itemStatic ∨ ctx.hir_get n = HirNode.itemFn ∨
       ctx.hir_get n = HirNode.implItemMethod))
    (hgen : ctx.requires_monomorphization d = true ∨ ctx.requires_local d = true)
    (hderive : ∀ id, ctx.derive_registrar_fn = some id → ctx.local_def_id id ≠ d)
    (hplugin : ∀ id, ctx.plugin_registrar_fn = some id → ctx.local_def_id id ≠ d) :
    lookupA (reachable_non_generics_provider ctx) d = none ∧
    ∀ ectx : ExpCtx, ectx.reach = ctx → ∀ lvl,
      (ExportedSymbol.nonGeneric d, lvl) ∉ exported_symbols_provider_local ectx := by
  have habsent : lookupA (reachable_non_generics_provider ctx) d = none := by
    cases htrans : ctx.should_trans with
    | false =>
      unfold reachable_non_generics_provider
      rw [htrans]
      simp [lookupA]
    | true =>
      rw [lookupA_provider_eq_base ctx d htrans hderive hplugin, lookupA_reachable_base]
      have hmem : d ∉ ctx.reachable_set.filterMap (reachable_filter ctx) := by
        intro hmem
        obtain ⟨n2, hn2, hfil⟩ := List.mem_filterMap.mp hmem
        rw [reachable_filter_eq_some_iff] at hfil
        obtain ⟨hd2, hcase⟩ := hfil
        rcases hcase with ⟨hf, _⟩ | ⟨_, hm, hl⟩
        · rcases hkind n2 hn2 hd2 with h | h | h <;> rw [hf] at h <;> cases h
        · rw [hd2] at hm hl
          rcases hgen with h | h
          · rw [hm] at h; cases h
          · rw [hl] at h; cases h
      simp [hmem]
  refine ⟨habsent, ?_⟩
  intro ectx he lvl hmem
  subst he
  unfold exported_symbols_provider_local at hmem
  by_cases htrans : ectx.reach.should_trans = false
  · rw [if_pos htrans] at hmem
    simp at hmem
  · rw [if_neg htrans] at hmem
    rw [List.mem_mergeSort] at hmem
    unfold assemble_symbols at hmem
    simp only [List.mem_append] at hmem
    rcases hmem with ((((h1 | h2) | h3) | h4) | h5) | h6
    · obtain ⟨q, hq, he2⟩ := List.mem_map.mp h1
      obtain ⟨d0, l0⟩ := q
      simp only [Prod.mk.injEq, ExportedSymbol.nonGeneric.injEq] at he2
      obtain ⟨hd0, hl0⟩ := he2
      subst hd0
      have := lookupA_isSome_of_mem hq
      rw [habsent] at this
      cases this
    · have := mem_entry_symbols ectx _ h2
      simp at this
    · obtain ⟨m, _, he3⟩ := mem_allocator_symbols ectx _ h3
      simp at he3
    · obtain ⟨s, _, he4⟩ := mem_pgo_symbols ectx _ h4
      simp at he4
    · have := mem_metadata_symbols ectx _ h5
      simp at this
    · obtain ⟨d2, s2, he6⟩ := mem_shared_generics_symbols ectx _ h6
      simp at he6

/-- C6 witness: in ctxW3 the generic reachable definition 0 is absent from
both tables. -/
theorem C6_generic_or_local_excluded_witness :
    lookupA (reachable_non_generics_provider ctxW3) 0 = none ∧
    ∀ ectx : ExpCtx, ectx.reach = ctxW3 → ∀ lvl,
      (ExportedSymbol.nonGeneric 0, lvl) ∉ exported_symbols_provider_local ectx :=
  C6_generic_or_local_excluded ctxW3 0 (by decide) (Or.inl rfl)
    (fun id h => Option.noConfusion h) (fun id h => Option.noConfusion h)

theorem countP_zero_of_all {γ : Type} (l : List γ) (q : γ → Bool)
    (h : ∀ x ∈ l, q x = false) : l.countP q = 0 :=
  List.countP_eq_zero.mpr (fun a ha => by rw [h a ha]; exact Bool.false_ne_true)

theorem exported_symbols_eq_mergeSort (ectx : ExpCtx)
    (htrans : ectx.reach.should_trans = true) :
    exported_symbols_provider_local ectx = (assemble_symbols ectx).mergeSort record_le := by
  unfold exported_symbols_provider_local
  rw [htrans]
  simp

theorem countP_exported (ectx : ExpCtx) (htrans : ectx.reach.should_trans = true)
    (q : ExportedSymbol × SymbolExportLevel → Bool) :
    (exported_symbols_provider_local ectx).countP q
      = ((reachable_non_generics_provider ectx.reach).map
          (fun p => (ExportedSymbol.nonGeneric p.1, p.2))).countP q
        + (entry_symbols ectx).countP q
        + (allocator_symbols ectx).countP q
        + (pgo_symbols ectx).countP q
        + (metadata_symbols ectx).countP q
        + (shared_generics_symbols ectx).countP q := by
  rw [exported_symbols_eq_mergeSort ectx htrans]
  rw [(List.mergeSort_perm (assemble_symbols ectx) record_le).countP_eq q]
  unfold assemble_symbols
  simp only [List.countP_append]

/-- C8: with an allocator requested, the export table has exactly one
synthetic record per allocator operation, named "__rust_" ++ operation, each
at level Rust; with the four operations this is exactly four allocator
records, in addition to the NonGeneric records of the reachable table. -/
theorem C8_allocator_records (ectx : ExpCtx)
    (htrans : ectx.reach.should_trans = true)
    (halloc : ectx.allocator_kind = true)
    (hmeta : ∀ m ∈ ALLOCATOR_METHODS, ectx.metadata_symbol_name ≠ "__rust_" ++ m) :
    (∀ m ∈ ALLOCATOR_METHODS,
      (exported_symbols_provider_local ectx).countP
        (fun p => p.1 == ExportedSymbol.noDefId ("__rust_" ++ m)) = 1) ∧
    (∀ p ∈ exported_symbols_provider_local ectx,
      is_allocator_record p = true → p.2 = SymbolExportLevel.Rust) ∧
    (exported_symbols_provider_local ectx).countP is_allocator_record
      = ALLOCATOR_METHODS.length ∧
    ALLOCATOR_METHODS.length = 4 ∧
    (exported_symbols_provider_local ectx).countP is_non_generic_record
      = (reachable_non_generics_provider ectx.reach).length := by
  have halloc_eq : allocator_symbols ectx = ALLOCATOR_METHODS.map (fun method =>
      (ExportedSymbol.noDefId ("__rust_" ++ method), SymbolExportLevel.Rust)) := by
    unfold allocator_symbols
    rw [if_pos halloc]
  refine ⟨?_, ?_, ?_, rfl, ?_⟩
  · intro m hm
    have hm4 : m = "alloc" ∨ m = "dealloc" ∨ m = "realloc" ∨ m = "alloc_zeroed" := by
      simpa [ALLOCATOR_METHODS] using hm
    rw [countP_exported ectx htrans, halloc_eq]
    have e1 : ((reachable_non_generics_provider ectx.reach).map
        (fun p => (ExportedSymbol.nonGeneric p.1, p.2))).countP
        (fun p => p.1 == ExportedSymbol.noDefId ("__rust_" ++ m)) = 0 := by
      apply countP_zero_of_all
      intro p hp
      obtain ⟨r, _, he⟩ := List.mem_map.mp hp
      rw [← he]
      simp
    have e2 : (entry_symbols ectx).countP
        (fun p => p.1 == ExportedSymbol.noDefId ("__rust_" ++ m)) = 0 := by
      apply countP_zero_of_all
      intro p hp
      rw [mem_entry_symbols ectx p hp]
      rcases hm4 with rfl | rfl | rfl | rfl <;> decide
    have e3 : (ALLOCATOR_METHODS.map (fun method =>
        (ExportedSymbol.noDefId ("__rust_" ++ method), SymbolExportLevel.Rust))).countP
        (fun p => p.1 == ExportedSymbol.noDefId ("__rust_" ++ m)) = 1 := by
      rcases hm4 with rfl | rfl | rfl | rfl <;> decide
    have e4 : (pgo_symbols ectx).countP
        (fun p => p.1 == ExportedSymbol.noDefId ("__rust_" ++ m)) = 0 := by
      apply countP_zero_of_all
      intro p hp
      obtain ⟨s, hs, he⟩ := mem_pgo_symbols ectx p hp
      have hs2 : s = "__llvm_profile_raw_version" ∨ s = "__llvm_profile_filename" := by
        simpa [PROFILER_WEAK_SYMBOLS] using hs
      rw [he]
      rcases hm4 with rfl | rfl | rfl | rfl <;> rcases hs2 with rfl | rfl <;> decide
    have e5 : (metadata_symbols ectx).countP
        (fun p => p.1 == ExportedSymbol.noDefId ("__rust_" ++ m)) = 0 := by
      apply countP_zero_of_all
      intro p hp
      rw [mem_metadata_symbols ectx p hp]
      have hne := hmeta m hm
      simpa using hne
    have e6 : (shared_generics_symbols ectx).countP
        (fun p => p.1 == ExportedSymbol.noDefId ("__rust_" ++ m)) = 0 := by
      apply countP_zero_of_all
      intro p hp
      obtain ⟨d2, s2, he⟩ := mem_shared_generics_symbols ectx p hp
      rw [he]
      simp
    rw [e1, e2, e3, e4, e5, e6]
  · intro p hp hq
    rw [exported_symbols_eq_mergeSort ectx htrans, List.mem_mergeSort] at hp
    unfold assemble_symbols at hp
    simp only [List.mem_append] at hp
    rcases hp with ((((h1 | h2) | h3) | h4) | h5) | h6
    · obtain ⟨r, _, he⟩ := List.mem_map.mp h1
      rw [← he] at hq
      simp [is_allocator_record] at hq
    · rw [mem_entry_symbols ectx p h2] at hq
      exact absurd hq (by decide)
    · obtain ⟨m, _, he⟩ := mem_allocator_symbols ectx p h3
      rw [he]
    · obtain ⟨s, hs, he⟩ := mem_pgo_symbols ectx p h4
      have hs2 : s = "__llvm_profile_raw_version" ∨ s = "__llvm_profile_filename" := by
        simpa [PROFILER_WEAK_SYMBOLS] using hs
      rw [he] at hq
      rcases hs2 with rfl | rfl <;> exact absurd hq (by decide)
    · rw [mem_metadata_symbols ectx p h5]
    · obtain ⟨d2, s2, he⟩ := mem_shared_generics_symbols ectx p h6
      rw [he] at hq
      simp [is_allocator_record] at hq
  · rw [countP_exported ectx htrans, halloc_eq]
    have e1 : ((reachable_non_generics_provider ectx.reach).map
        (fun p => (ExportedSymbol.nonGeneric p.1, p.2))).countP is_allocator_record = 0 := by
      apply countP_zero_of_all
      intro p hp
      obtain ⟨r, _, he⟩ := List.mem_map.mp hp
      rw [← he]
      rfl
    have e2 : (entry_symbols ectx).countP is_allocator_record = 0 := by
      apply countP_zero_of_all
      intro p hp
      rw [mem_entry_symbols ectx p hp]
      decide
    have e3 : (ALLOCATOR_METHODS.map (fun method =>
        (ExportedSymbol.noDefId ("__rust_" ++ method), SymbolExportLevel.Rust))).countP
        is_allocator_record = ALLOCATOR_METHODS.length := by
      decide
    have e4 : (pgo_symbols ectx).countP is_allocator_record = 0 := by
      apply countP_zero_of_all
      intro p hp
      obtain ⟨s, hs, he⟩ := mem_pgo_symbols ectx p hp
      have hs2 : s = "__llvm_profile_raw_version" ∨ s = "__llvm_profile_filename" := by
        simpa [PROFILER_WEAK_SYMBOLS] using hs
      rw [he]
      rcases hs2 with rfl | rfl <;> decide
    have e5 : (metadata_symbols ectx).countP is_allocator_record = 0 := by
      apply countP_zero_of_all
      intro p hp
      rw [mem_metadata_symbols ectx p hp]
      simp only [is_allocator_record, List.any_eq_false]
      intro m2 hm2
      simp only [beq_iff_eq]
      intro he2
      exact hmeta m2 hm2 he2.symm
    have e6 : (shared_generics_symbols ectx).countP is_allocator_record = 0 := by
      apply countP_zero_of_all
      intro p hp
      obtain ⟨d2, s2, he⟩ := mem_shared_generics_symbols ectx p hp
      rw [he]
      rfl
    rw [e1, e2, e3, e4, e5, e6]
    omega
  · rw [countP_exported ectx htrans, halloc_eq]
    have e1 : ((reachable_non_generics_provider ectx.reach).map
        (fun p => (ExportedSymbol.nonGeneric p.1, p.2))).countP is_non_generic_record
        = (reachable_non_generics_provider ectx.reach).length := by
      have h1 : ((reachable_non_generics_provider ectx.reach).map
          (fun p => (ExportedSymbol.nonGeneric p.1, p.2))).countP is_non_generic_record
          = ((reachable_non_generics_provider ectx.reach).map
              (fun p => (ExportedSymbol.nonGeneric p.1, p.2))).length := by
        apply List.countP_eq_length.mpr
        intro a ha
        obtain ⟨r, _, he⟩ := List.mem_map.mp ha
        rw [← he]
        rfl
      rw [h1, List.length_map]
    have e2 : (entry_symbols ectx).countP is_non_generic_record = 0 := by
      apply countP_zero_of_all
      intro p hp
      rw [mem_entry_symbols ectx p hp]
      decide
    have e3 : (ALLOCATOR_METHODS.map (fun method =>
        (ExportedSymbol.noDefId ("__rust_" ++ method), SymbolExportLevel.Rust))).countP
        is_non_generic_record = 0 := by
      decide
    have e4 : (pgo_symbols ectx).countP is_non_generic_record = 0 := by
      apply countP_zero_of_all
      intro p hp
      obtain ⟨s, hs, he⟩ := mem_pgo_symbols ectx p hp
      rw [he]
      rfl
    have e5 : (metadata_symbols ectx).countP is_non_generic_record = 0 := by
      apply countP_zero_of_all
      intro p hp
      rw [mem_metadata_symbols ectx p hp]
      rfl
    have e6 : (shared_generics_symbols ectx).countP is_non_generic_record = 0 := by
      apply countP_zero_of_all
      intro p hp
      obtain ⟨d2, s2, he⟩ := mem_shared_generics_symbols ectx p hp
      rw [he]
      rfl
    rw [e1, e2, e3, e4, e5, e6]
    omega

/-- C8 witness: the concrete allocator-requesting unit ectxW1 instantiates
the rule. -/
theorem C8_allocator_records_witness :
    (∀ m ∈ ALLOCATOR_METHODS,
      (exported_symbols_provider_local ectxW1).countP
        (fun p => p.1 == ExportedSymbol.noDefId ("__rust_" ++ m)) = 1) ∧
    (∀ p ∈ exported_symbols_provider_local ectxW1,
      is_allocator_record p = true → p.2 = SymbolExportLevel.Rust) ∧
    (exported_symbols_provider_local ectxW1).countP is_allocator_record
      = ALLOCATOR_METHODS.length ∧
    ALLOCATOR_METHODS.length = 4 ∧
    (exported_symbols_provider_local ectxW1).countP is_non_generic_record
      = (reachable_non_generics_provider ectxW1.reach).length :=
  C8_allocator_records ectxW1 rfl rfl (by decide)

theorem flat_entries_cons (c : CrateNum) (t : List CrateNum)
    (exported : CrateNum → List (ExportedSymbol × SymbolExportLevel)) :
    flat_entries (c :: t) exported
      = (exported c).map (fun p => (c, p)) ++ flat_entries t exported := by
  unfold flat_entries
  rw [List.flatMap_cons]

theorem provider_eq_foldl_flat (cnums : List CrateNum)
    (exported : CrateNum → List (ExportedSymbol × SymbolExportLevel))
    (fp : CrateNum → Fingerprint) :
    upstream_monomorphizations_provider cnums exported fp
      = (flat_entries cnums exported).foldl (handle_entry fp) [] := by
  suffices h : ∀ m : Registry, cnums.foldl (fun m2 cnum =>
      (exported cnum).foldl (fun m3 p => handle_entry fp m3 (cnum, p)) m2) m
      = (flat_entries cnums exported).foldl (handle_entry fp) m from h []
  induction cnums with
  | nil => intro m; rfl
  | cons c t ih =>
    intro m
    rw [List.foldl_cons, ih, flat_entries_cons, List.foldl_append]
    rw [List.foldl_map]

theorem lookupOwner_register_generic_self (fp : CrateNum → Fingerprint) (cnum : CrateNum)
    (m : Registry) (def_id : DefId) (substs : Subst) :
    lookupOwner (register_generic fp cnum m def_id substs) def_id substs
      = some (owner_update fp cnum (lookupOwner m def_id substs)) := by
  unfold register_generic lookupOwner
  rw [lookupA_updateEntry_self]
  cases h : lookupA m def_id with
  | none => simp [h, lookupA_updateEntry_self, updateEntry, lookupA]
  | some sm => simp [h, lookupA_updateEntry_self]

theorem lookupOwner_register_generic_ne (fp : CrateNum → Fingerprint) (cnum : CrateNum)
    (m : Registry) (def_id : DefId) (substs : Subst) (d2 : DefId) (s2 : Subst)
    (h : ¬ (d2 = def_id ∧ s2 = substs)) :
    lookupOwner (register_generic fp cnum m d2 s2) def_id substs
      = lookupOwner m def_id substs := by
  unfold register_generic lookupOwner
  by_cases hd : d2 = def_id
  · subst hd
    have hs : substs ≠ s2 := fun he => h ⟨rfl, he.symm⟩
    rw [lookupA_updateEntry_self]
    cases hm : lookupA m d2 with
    | none => simp [lookupA_updateEntry_ne _ _ _ _ hs, lookupA, updateEntry, Ne.symm hs]
    | some sm => simp [lookupA_updateEntry_ne _ _ _ _ hs]
  · have hdne : def_id ≠ d2 := fun he => hd he.symm
    rw [lookupA_updateEntry_ne _ _ _ _ hdne]

theorem lookupOwner_foldl (fp : CrateNum → Fingerprint) (def_id : DefId) (substs : Subst) :
    ∀ (entries : List (CrateNum × (ExportedSymbol × SymbolExportLevel))) (m : Registry),
    lookupOwner (entries.foldl (handle_entry fp) m) def_id substs
      = (entries.filterMap (key_entry_crate def_id substs)).foldl
          (fun o c => some (owner_update fp c o)) (lookupOwner m def_id substs) := by
  intro entries
  induction entries with
  | nil => intro m; rfl
  | cons ce t ih =>
    intro m
    rw [List.foldl_cons]
    obtain ⟨c, sym, lvl⟩ := ce
    cases sym with
    | generic d2 s2 =>
      by_cases hk : d2 = def_id ∧ s2 = substs
      · obtain ⟨rfl, rfl⟩ := hk
        rw [ih]
        have h1 : handle_entry fp m (c, ExportedSymbol.generic d2 s2, lvl)
            = register_generic fp c m d2 s2 := rfl
        rw [h1, lookupOwner_register_generic_self]
        have h2 : ((c, ExportedSymbol.generic d2 s2, lvl) :: t).filterMap
            (key_entry_crate d2 s2)
            = c :: t.filterMap (key_entry_crate d2 s2) := by
          rw [List.filterMap_cons]
          simp [key_entry_crate]
        rw [h2, List.foldl_cons]
      · rw [ih]
        have h1 : handle_entry fp m (c, ExportedSymbol.generic d2 s2, lvl)
            = register_generic fp c m d2 s2 := rfl
        rw [h1, lookupOwner_register_generic_ne fp c m def_id substs d2 s2 hk]
        have h2 : ((c, ExportedSymbol.generic d2 s2, lvl) :: t).filterMap
            (key_entry_crate def_id substs)
            = t.filterMap (key_entry_crate def_id substs) := by
          rw [List.filterMap_cons]
          simp [key_entry_crate, hk]
        rw [h2]
    | nonGeneric d2 =>
      rw [ih]
      have h2 : ((c, ExportedSymbol.nonGeneric d2, lvl) :: t).filterMap
          (key_entry_crate def_id substs)
          = t.filterMap (key_entry_crate def_id substs) := by
        rw [List.filterMap_cons]
        simp [key_entry_crate]
      rw [h2]
      rfl
    | noDefId nm =>
      rw [ih]
      have h2 : ((c, ExportedSymbol.noDefId nm, lvl) :: t).filterMap
          (key_entry_crate def_id substs)
          = t.filterMap (key_entry_crate def_id substs) := by
        rw [List.filterMap_cons]
        simp [key_entry_crate]
      rw [h2]
      rfl

theorem lookupA_foldl_presence (fp : CrateNum → Fingerprint) (def_id : DefId) :
    ∀ (entries : List (CrateNum × (ExportedSymbol × SymbolExportLevel))) (m : Registry),
    (lookupA (entries.foldl (handle_entry fp) m) def_id).isSome
      = ((lookupA m def_id).isSome || entries.any (entry_mentions_def def_id)) := by
  intro entries
  induction entries with
  | nil => intro m; simp
  | cons ce t ih =>
    intro m
    rw [List.foldl_cons, ih]
    obtain ⟨c, sym, lvl⟩ := ce
    cases sym with
    | generic d2 s2 =>
      by_cases hd : d2 = def_id
      · subst hd
        have h1 : (lookupA (handle_entry fp m
            (c, ExportedSymbol.generic d2 s2, lvl)) d2).isSome = true := by
          show (lookupA (register_generic fp c m d2 s2) d2).isSome = true
          unfold register_generic
          rw [lookupA_updateEntry_self]
          rfl
        rw [h1]
        simp [entry_mentions_def]
      · have h1 : lookupA (handle_entry fp m
            (c, ExportedSymbol.generic d2 s2, lvl)) def_id = lookupA m def_id := by
          show lookupA (register_generic fp c m d2 s2) def_id = lookupA m def_id
          unfold register_generic
          exact lookupA_updateEntry_ne _ _ _ _ (fun he => hd he.symm)
        rw [h1]
        have h2 : entry_mentions_def def_id (c, ExportedSymbol.generic d2 s2, lvl)
            = false := by
          simp [entry_mentions_def, hd]
        simp [h2]
    | nonGeneric d2 =>
      have h2 : entry_mentions_def def_id (c, ExportedSymbol.nonGeneric d2, lvl)
          = false := rfl
      simp [handle_entry, h2]
    | noDefId nm =>
      have h2 : entry_mentions_def def_id (c, ExportedSymbol.noDefId nm, lvl)
          = false := rfl
      simp [handle_entry, h2]

theorem lookupOwner_provider_eq_fold (cnums : List CrateNum)
    (exported : CrateNum → List (ExportedSymbol × SymbolExportLevel))
    (fp : CrateNum → Fingerprint) (def_id : DefId) (substs : Subst) :
    lookupOwner (upstream_monomorphizations_provider cnums exported fp) def_id substs
      = (key_occurrences cnums exported def_id substs).foldl
          (fun o c => some (owner_update fp c o)) none := by
  rw [provider_eq_foldl_flat, lookupOwner_foldl]
  rfl

theorem foldl_owner_update_acc (fp : CrateNum → Fingerprint) :
    ∀ (l : List CrateNum) (o : CrateNum),
    ∃ c0, l.foldl (fun acc c => some (owner_update fp c acc)) (some o) = some c0 ∧
      (c0 = o ∨ c0 ∈ l) ∧ fp c0 ≤ fp o ∧ ∀ x ∈ l, fp c0 ≤ fp x := by
  intro l
  induction l with
  | nil => intro o; exact ⟨o, rfl, Or.inl rfl, Nat.le_refl _, by simp⟩
  | cons c t ih =>
    intro o
    rw [List.foldl_cons]
    by_cases hcmp : fp o > fp c
    · have hstep : owner_update fp c (some o) = c := by simp [owner_update, hcmp]
      rw [hstep]
      obtain ⟨c0, h1, h2, h3, h4⟩ := ih c
      refine ⟨c0, h1, ?_, ?_, ?_⟩
      · rcases h2 with rfl | h2
        · exact Or.inr (List.mem_cons_self _ _)
        · exact Or.inr (List.mem_cons_of_mem _ h2)
      · exact Nat.le_trans h3 (Nat.le_of_lt hcmp)
      · intro x hx
        rcases List.mem_cons.mp hx with rfl | hx
        · exact h3
        · exact h4 x hx
    · have hstep : owner_update fp c (some o) = o := by simp [owner_update, hcmp]
      rw [hstep]
      obtain ⟨c0, h1, h2, h3, h4⟩ := ih o
      refine ⟨c0, h1, ?_, h3, ?_⟩
      · rcases h2 with rfl | h2
        · exact Or.inl rfl
        · exact Or.inr (List.mem_cons_of_mem _ h2)
      · intro x hx
        rcases List.mem_cons.mp hx with rfl | hx
        · exact Nat.le_trans h3 (Nat.le_of_not_lt hcmp)
        · exact h4 x hx

theorem foldl_owner_update_none (fp : CrateNum → Fingerprint) (l : List CrateNum) :
    (l = [] ∧ l.foldl (fun acc c => some (owner_update fp c acc)) none = none) ∨
    ∃ c0, l.foldl (fun acc c => some (owner_update fp c acc)) none = some c0 ∧
      c0 ∈ l ∧ ∀ x ∈ l, fp c0 ≤ fp x := by
  cases l with
  | nil => exact Or.inl ⟨rfl, rfl⟩
  | cons c t =>
    right
    rw [List.foldl_cons]
    have h0 : owner_update fp c none = c := rfl
    rw [h0]
    obtain ⟨c0, h1, h2, h3, h4⟩ := foldl_owner_update_acc fp t c
    refine ⟨c0, h1, ?_, ?_⟩
    · rcases h2 with rfl | h2
      · exact List.mem_cons_self _ _
      · exact List.mem_cons_of_mem _ h2
    · intro x hx
      rcases List.mem_cons.mp hx with rfl | hx
      · exact h3
      · exact h4 x hx

theorem mem_key_occurrences (cnums : List CrateNum)
    (exported : CrateNum → List (ExportedSymbol × SymbolExportLevel))
    (def_id : DefId) (substs : Subst) (c : CrateNum) :
    c ∈ key_occurrences cnums exported def_id substs ↔
      (c ∈ cnums ∧ exports_generic_key exported c def_id substs = true) := by
  unfold key_occurrences
  rw [List.mem_filterMap]
  constructor
  · rintro ⟨ce, hce, hkey⟩
    unfold flat_entries at hce
    rw [List.mem_flatMap] at hce
    obtain ⟨c2, hc2, hmem⟩ := hce
    obtain ⟨p, hp, he⟩ := List.mem_map.mp hmem
    subst he
    obtain ⟨sym, lvl⟩ := p
    cases sym with
    | generic d2 s2 =>
      simp only [key_entry_crate] at hkey
      by_cases hk : d2 = def_id ∧ s2 = substs
      · rw [if_pos hk] at hkey
        obtain rfl : c2 = c := Option.some.inj hkey
        obtain ⟨rfl, rfl⟩ := hk
        refine ⟨hc2, ?_⟩
        unfold exports_generic_key
        rw [List.any_eq_true]
        exact ⟨(ExportedSymbol.generic d2 s2, lvl), hp, by simp⟩
      · rw [if_neg hk] at hkey
        cases hkey
    | nonGeneric d2 =>
      simp [key_entry_crate] at hkey
    | noDefId nm =>
      simp [key_entry_crate] at hkey
  · rintro ⟨hc, hexp⟩
    unfold exports_generic_key at hexp
    rw [List.any_eq_true] at hexp
    obtain ⟨p, hp, hmatch⟩ := hexp
    obtain ⟨sym, lvl⟩ := p
    cases sym with
    | generic d2 s2 =>
      simp at hmatch
      obtain ⟨rfl, rfl⟩ := hmatch
      refine ⟨(c, ExportedSymbol.generic d2 s2, lvl), ?_, ?_⟩
      · unfold flat_entries
        rw [List.mem_flatMap]
        exact ⟨c, hc, List.mem_map.mpr ⟨_, hp, rfl⟩⟩
      · simp [key_entry_crate]
    | nonGeneric d2 => simp at hmatch
    | noDefId nm => simp at hmatch

/-- C2: with pairwise distinct per-unit fingerprints, the ownership map has
an owner for exactly the keys exported by some participating unit, that owner
is a unit that exported the key, and the map read is invariant under
permutation of the scan order. -/
theorem C2_ownership_total_owner_exported_order_independent (cnums : List CrateNum)
    (exported : CrateNum → List (ExportedSymbol × SymbolExportLevel))
    (fp : CrateNum → Fingerprint)
    (hinj : ∀ c1 ∈ cnums, ∀ c2 ∈ cnums, fp c1 = fp c2 → c1 = c2) :
    (∀ def_id substs,
      (∃ c ∈ cnums, exports_generic_key exported c def_id substs = true) ↔
      ∃ o, lookupOwner (upstream_monomorphizations_provider cnums exported fp)
        def_id substs = some o) ∧
    (∀ def_id substs o,
      lookupOwner (upstream_monomorphizations_provider cnums exported fp)
        def_id substs = some o →
      o ∈ cnums ∧ exports_generic_key exported o def_id substs = true) ∧
    (∀ cnums2, cnums2.Perm cnums → ∀ def_id substs,
      lookupOwner (upstream_monomorphizations_provider cnums2 exported fp) def_id substs
        = lookupOwner (upstream_monomorphizations_provider cnums exported fp)
            def_id substs) := by
  refine ⟨?_, ?_, ?_⟩
  · intro def_id substs
    rw [lookupOwner_provider_eq_fold]
    constructor
    · rintro ⟨c, hc, hexp⟩
      have hmem : c ∈ key_occurrences cnums exported def_id substs :=
        (mem_key_occurrences cnums exported def_id substs c).mpr ⟨hc, hexp⟩
      rcases foldl_owner_update_none fp (key_occurrences cnums exported def_id substs)
        with ⟨hnil, _⟩ | ⟨c0, h1, _, _⟩
      · rw [hnil] at hmem
        cases hmem
      · exact ⟨c0, h1⟩
    · rintro ⟨o, ho⟩
      rcases foldl_owner_update_none fp (key_occurrences cnums exported def_id substs)
        with ⟨_, hres⟩ | ⟨c0, h1, h2, _⟩
      · rw [hres] at ho
        cases ho
      · have := (mem_key_occurrences cnums exported def_id substs c0).mp h2
        exact ⟨c0, this.1, this.2⟩
  · intro def_id substs o ho
    rw [lookupOwner_provider_eq_fold] at ho
    rcases foldl_owner_update_none fp (key_occurrences cnums exported def_id substs)
      with ⟨_, hres⟩ | ⟨c0, h1, h2, _⟩
    · rw [hres] at ho
      cases ho
    · rw [h1] at ho
      obtain rfl : c0 = o := Option.some.inj ho
      exact (mem_key_occurrences cnums exported def_id substs c0).mp h2
  · intro cnums2 hperm def_id substs
    rw [lookupOwner_provider_eq_fold, lookupOwner_provider_eq_fold]
    have hoccperm : (key_occurrences cnums2 exported def_id substs).Perm
        (key_occurrences cnums exported def_id substs) := by
      unfold key_occurrences flat_entries
      exact (hperm.flatMap_right _).filterMap _
    rcases foldl_owner_update_none fp (key_occurrences cnums2 exported def_id substs)
      with ⟨hnil2, hres2⟩ | ⟨c0, h1, h2, h3⟩
    · have hnil1 : key_occurrences cnums exported def_id substs = [] := by
        have hlen := hoccperm.length_eq
        rw [hnil2] at hlen
        exact List.length_eq_zero.mp hlen.symm
      rcases foldl_owner_update_none fp (key_occurrences cnums exported def_id substs)
        with ⟨_, hres1⟩ | ⟨c1, h1b, h2b, _⟩
      · rw [hres1, hres2]
      · rw [hnil1] at h2b
        cases h2b
    · rcases foldl_owner_update_none fp (key_occurrences cnums exported def_id substs)
        with ⟨hnil1, _⟩ | ⟨c1, h1b, h2b, h3b⟩
      · have := hoccperm.mem_iff.mp h2
        rw [hnil1] at this
        cases this
      · rw [h1, h1b]
        have hc0 : c0 ∈ key_occurrences cnums exported def_id substs :=
          hoccperm.mem_iff.mp h2
        have hle1 : fp c0 ≤ fp c1 := h3 c1 (hoccperm.mem_iff.mpr h2b)
        have hle2 : fp c1 ≤ fp c0 := h3b c0 hc0
        have hcn0 : c0 ∈ cnums :=
          ((mem_key_occurrences cnums exported def_id substs c0).mp hc0).1
        have hcn1 : c1 ∈ cnums :=
          ((mem_key_occurrences cnums exported def_id substs c1).mp h2b).1
        rw [hinj c0 hcn0 c1 hcn1 (Nat.le_antisymm hle1 hle2)]

/-- C2 witness: the two-crate link [1, 2] with tables exW and identity
fingerprints instantiates the statement. -/
theorem C2_ownership_witness :
    (∀ def_id substs,
      (∃ c ∈ [1, 2], exports_generic_key exW c def_id substs = true) ↔
      ∃ o, lookupOwner (upstream_monomorphizations_provider [1, 2] exW (fun c => c))
        def_id substs = some o) ∧
    (∀ def_id substs o,
      lookupOwner (upstream_monomorphizations_provider [1, 2] exW (fun c => c))
        def_id substs = some o →
      o ∈ [1, 2] ∧ exports_generic_key exW o def_id substs = true) ∧
    (∀ cnums2, cnums2.Perm [1, 2] → ∀ def_id substs,
      lookupOwner (upstream_monomorphizations_provider cnums2 exW (fun c => c))
        def_id substs
        = lookupOwner (upstream_monomorphizations_provider [1, 2] exW (fun c => c))
            def_id substs) :=
  C2_ownership_total_owner_exported_order_independent [1, 2] exW (fun c => c) (by decide)

/-- C1 counterexample: units 1 and 2 both export the generic key
(definition 0, type arguments [0]); fingerprint(2) = 2 > 1 = fingerprint(1),
so the claim requires owner 2, but the computed ownership map does not assign
unit 2 (it keeps unit 1, the unit with the smaller fingerprint). -/
theorem C1_claimed_greater_fingerprint_refuted :
    lookupOwner (upstream_monomorphizations_provider [1, 2] exW (fun c => c)) 0 [0]
      ≠ some 2 := by
  decide

/-- C1 (amended): when a key is first seen the scanning unit becomes
provisional owner; on a conflict the unit kept is the one with the strictly
SMALLER stable fingerprint.  In particular, with exactly two units exporting
the same key and fingerprint(u2) > fingerprint(u1), unit u1 owns the key. -/
theorem C1_smaller_fingerprint_owner (u1 u2 : CrateNum) (def_id : DefId) (substs : Subst)
    (exported : CrateNum → List (ExportedSymbol × SymbolExportLevel))
    (fp : CrateNum → Fingerprint)
    (h1 : exports_generic_key exported u1 def_id substs = true)
    (h2 : exports_generic_key exported u2 def_id substs = true)
    (hfp : fp u1 < fp u2) :
    lookupOwner (upstream_monomorphizations_provider [u1, u2] exported fp) def_id substs
      = some u1 := by
  rw [lookupOwner_provider_eq_fold]
  have hm1 : u1 ∈ key_occurrences [u1, u2] exported def_id substs :=
    (mem_key_occurrences [u1, u2] exported def_id substs u1).mpr ⟨by simp, h1⟩
  rcases foldl_owner_update_none fp (key_occurrences [u1, u2] exported def_id substs)
    with ⟨hnil, _⟩ | ⟨c0, hres, hmem, hmin⟩
  · rw [hnil] at hm1
    cases hm1
  · rw [hres]
    have hc0 := (mem_key_occurrences [u1, u2] exported def_id substs c0).mp hmem
    have hc02 : c0 = u1 ∨ c0 = u2 := by simpa using hc0.1
    rcases hc02 with rfl | rfl
    · rfl
    · exact absurd hfp (Nat.not_lt.mpr (hmin u1 hm1))

/-- C1 (amended) witness: with fingerprints 1 < 2 the owner of the shared key
is unit 1. -/
theorem C1_smaller_fingerprint_owner_witness :
    lookupOwner (upstream_monomorphizations_provider [1, 2] exW (fun c => c)) 0 [0]
      = some 1 :=
  C1_smaller_fingerprint_owner 1 2 0 [0] exW (fun c => c)
    (by decide) (by decide) (by decide)

/-- C9: the per-definition ownership lookup is a pure read of the registry:
it returns none exactly when no participating unit exports a generic
instantiation of the definition, and otherwise the returned inner map gives
the owner of each type-argument key. -/
theorem C9_lookup_pure_none_or_map (cnums : List CrateNum)
    (exported : CrateNum → List (ExportedSymbol × SymbolExportLevel))
    (fp : CrateNum → Fingerprint) (def_id : DefId) :
    (upstream_monomorphizations_for_provider
        (upstream_monomorphizations_provider cnums exported fp) def_id = none ↔
      ¬ ∃ c ∈ cnums, exports_generic_of exported c def_id = true) ∧
    (∀ sm, upstream_monomorphizations_for_provider
          (upstream_monomorphizations_provider cnums exported fp) def_id = some sm →
      ∀ substs, lookupA sm substs
        = lookupOwner (upstream_monomorphizations_provider cnums exported fp)
            def_id substs) := by
  have hpres : (lookupA (upstream_monomorphizations_provider cnums exported fp)
      def_id).isSome = (flat_entries cnums exported).any (entry_mentions_def def_id) := by
    rw [provider_eq_foldl_flat, lookupA_foldl_presence]
    simp [lookupA]
  have hany : (flat_entries cnums exported).any (entry_mentions_def def_id) = true ↔
      ∃ c ∈ cnums, exports_generic_of exported c def_id = true := by
    rw [List.any_eq_true]
    constructor
    · rintro ⟨ce, hce, hm⟩
      unfold flat_entries at hce
      rw [List.mem_flatMap] at hce
      obtain ⟨c, hc, hmm⟩ := hce
      obtain ⟨p, hp, he⟩ := List.mem_map.mp hmm
      subst he
      refine ⟨c, hc, ?_⟩
      unfold exports_generic_of
      rw [List.any_eq_true]
      refine ⟨p, hp, ?_⟩
      obtain ⟨sym, lvl⟩ := p
      cases sym <;> simpa [entry_mentions_def] using hm
    · rintro ⟨c, hc, hexp⟩
      unfold exports_generic_of at hexp
      rw [List.any_eq_true] at hexp
      obtain ⟨p, hp, hm⟩ := hexp
      refine ⟨(c, p), ?_, ?_⟩
      · unfold flat_entries
        rw [List.mem_flatMap]
        exact ⟨c, hc, List.mem_map.mpr ⟨p, hp, rfl⟩⟩
      · obtain ⟨sym, lvl⟩ := p
        cases sym <;> simpa [entry_mentions_def] using hm
  constructor
  · constructor
    · intro hnone hex
      have htrue := hany.mpr hex
      rw [← hpres] at htrue
      unfold upstream_monomorphizations_for_provider at hnone
      rw [hnone] at htrue
      cases htrue
    · intro hnex
      unfold upstream_monomorphizations_for_provider
      cases hl : lookupA (upstream_monomorphizations_provider cnums exported fp) def_id with
      | none => rfl
      | some sm =>
        exfalso
        have htrue : (lookupA (upstream_monomorphizations_provider cnums exported fp)
            def_id).isSome = true := by rw [hl]; rfl
        rw [hpres] at htrue
        exact hnex (hany.mp htrue)
  · intro sm hsm substs
    unfold upstream_monomorphizations_for_provider at hsm
    unfold lookupOwner
    rw [hsm]

/-- C9 witness: the concrete registry of the two-crate link instantiates the
statement at definition 0. -/
theorem C9_lookup_pure_none_or_map_witness :
    (upstream_monomorphizations_for_provider
        (upstream_monomorphizations_provider [1, 2] exW (fun c => c)) 0 = none ↔
      ¬ ∃ c ∈ [1, 2], exports_generic_of exW c 0 = true) ∧
    (∀ sm, upstream_monomorphizations_for_provider
          (upstream_monomorphizations_provider [1, 2] exW (fun c => c)) 0 = some sm →
      ∀ substs, lookupA sm substs
        = lookupOwner (upstream_monomorphizations_provider [1, 2] exW (fun c => c))
            0 substs) :=
  C9_lookup_pure_none_or_map [1, 2] exW (fun c => c) 0

theorem nat_lt_conn : ∀ a b : Nat, a ≠ b → (nat_lt a b = true ∨ nat_lt b a = true) := by
  intro a b h
  simp [nat_lt]
  omega

theorem nat_lt_asym : ∀ a b : Nat, nat_lt a b = true → nat_lt b a = false := by
  intro a b h
  simp [nat_lt] at h ⊢
  omega

theorem nat_lt_trans : ∀ a b c : Nat,
    nat_lt a b = true → nat_lt b c = true → nat_lt a c = true := by
  intro a b c h1 h2
  simp [nat_lt] at h1 h2 ⊢
  omega

theorem subst_lt_conn : ∀ s1 s2 : Subst, s1 ≠ s2 →
    (subst_lt s1 s2 = true ∨ subst_lt s2 s1 = true) := by
  intro s1
  induction s1 with
  | nil =>
    intro s2 h
    cases s2 with
    | nil => exact absurd rfl h
    | cons b bs => left; rfl
  | cons a as ih =>
    intro s2 h
    cases s2 with
    | nil => right; rfl
    | cons b bs =>
      by_cases hab : a = b
      · subst hab
        have hne : as ≠ bs := fun he => h (by rw [he])
        rcases ih bs hne with h1 | h1
        · left
          simpa [subst_lt] using h1
        · right
          simpa [subst_lt] using h1
      · rcases nat_lt_conn a b hab with h1 | h1
        · left
          simp only [subst_lt, if_neg hab]
          simpa [nat_lt] using h1
        · right
          simp only [subst_lt, if_neg (Ne.symm hab)]
          simpa [nat_lt] using h1

theorem subst_lt_asym : ∀ s1 s2 : Subst, subst_lt s1 s2 = true → subst_lt s2 s1 = false := by
  intro s1
  induction s1 with
  | nil =>
    intro s2 h
    cases s2 with
    | nil => simp [subst_lt] at h
    | cons b bs => rfl
  | cons a as ih =>
    intro s2 h
    cases s2 with
    | nil => simp [subst_lt] at h
    | cons b bs =>
      by_cases hab : a = b
      · subst hab
        simp only [subst_lt, if_pos rfl] at h ⊢
        exact ih bs h
      · simp only [subst_lt, if_neg hab] at h
        simp only [subst_lt, if_neg (Ne.symm hab)]
        simp only [decide_eq_true_eq] at h
        simp only [decide_eq_false_iff_not]
        omega

theorem subst_lt_trans : ∀ s1 s2 s3 : Subst,
    subst_lt s1 s2 = true → subst_lt s2 s3 = true → subst_lt s1 s3 = true := by
  intro s1
  induction s1 with
  | nil =>
    intro s2 s3 h1 h2
    cases s2 with
    | nil => simp [subst_lt] at h1
    | cons b bs =>
      cases s3 with
      | nil => simp [subst_lt] at h2
      | cons c cs => rfl
  | cons a as ih =>
    intro s2 s3 h1 h2
    cases s2 with
    | nil => simp [subst_lt] at h1
    | cons b bs =>
      cases s3 with
      | nil => simp [subst_lt] at h2
      | cons c cs =>
        by_cases hab : a = b
        · by_cases hbc : b = c
          · have hac : a = c := hab.trans hbc
            simp only [subst_lt, if_pos hab] at h1
            simp only [subst_lt, if_pos hbc] at h2
            simp only [subst_lt, if_pos hac]
            subst hab
            subst hbc
            exact ih bs cs h1 h2
          · have hac : a ≠ c := by rw [hab]; exact hbc
            simp only [subst_lt, if_neg hbc] at h2
            simp only [subst_lt, if_neg hac]
            rw [hab]
            exact h2
        · by_cases hbc : b = c
          · have hac : a ≠ c := by rw [← hbc]; exact hab
            simp only [subst_lt, if_neg hab] at h1
            simp only [subst_lt, if_neg hac]
            rw [← hbc]
            exact h1
          · simp only [subst_lt, if_neg hab] at h1
            simp only [subst_lt, if_neg hbc] at h2
            simp only [decide_eq_true_eq] at h1 h2
            have hac : a ≠ c := by omega
            simp only [subst_lt, if_neg hac, decide_eq_true_eq]
            omega

theorem str_le_total : ∀ a b : String, str_le a b = true ∨ str_le b a = true := by
  intro a b
  rcases le_total a b with h | h
  · exact Or.inl (decide_eq_true h)
  · exact Or.inr (decide_eq_true h)

theorem str_le_trans : ∀ a b c : String,
    str_le a b = true → str_le b c = true → str_le a c = true := by
  intro a b c h1 h2
  exact decide_eq_true (le_trans (of_decide_eq_true h1) (of_decide_eq_true h2))

theorem str_le_antisymm : ∀ a b : String, str_le a b = true → str_le b a = true → a = b := by
  intro a b h1 h2
  exact le_antisymm (of_decide_eq_true h1) (of_decide_eq_true h2)

theorem lex_le_total {α β : Type} [DecidableEq α] (lt : α → α → Bool) (le2 : β → β → Bool)
    (hlt_conn : ∀ a b, a ≠ b → (lt a b = true ∨ lt b a = true))
    (hle2_total : ∀ a b, le2 a b = true ∨ le2 b a = true) :
    ∀ x y, lex_le lt le2 x y = true ∨ lex_le lt le2 y x = true := by
  rintro ⟨a1, b1⟩ ⟨a2, b2⟩
  by_cases h : a1 = a2
  · subst h
    simp only [lex_le, if_pos rfl]
    exact hle2_total b1 b2
  · simp only [lex_le, if_neg h, if_neg (Ne.symm h)]
    exact hlt_conn a1 a2 h

theorem lex_le_trans {α β : Type} [DecidableEq α] (lt : α → α → Bool) (le2 : β → β → Bool)
    (hlt_asym : ∀ a b, lt a b = true → lt b a = false)
    (hlt_trans : ∀ a b c, lt a b = true → lt b c = true → lt a c = true)
    (hle2_trans : ∀ a b c, le2 a b = true → le2 b c = true → le2 a c = true) :
    ∀ x y z, lex_le lt le2 x y = true → lex_le lt le2 y z = true →
      lex_le lt le2 x z = true := by
  rintro ⟨a1, b1⟩ ⟨a2, b2⟩ ⟨a3, b3⟩ h1 h2
  by_cases h12 : a1 = a2
  · by_cases h23 : a2 = a3
    · have h13 : a1 = a3 := h12.trans h23
      simp only [lex_le, if_pos h12] at h1
      simp only [lex_le, if_pos h23] at h2
      simp only [lex_le, if_pos h13]
      subst h12
      subst h23
      exact hle2_trans b1 b2 b3 h1 h2
    · have h13 : a1 ≠ a3 := by rw [h12]; exact h23
      simp only [lex_le, if_neg h23] at h2
      simp only [lex_le, if_neg h13]
      rw [h12]
      exact h2
  · by_cases h23 : a2 = a3
    · have h13 : a1 ≠ a3 := by rw [← h23]; exact h12
      simp only [lex_le, if_neg h12] at h1
      simp only [lex_le, if_neg h13]
      rw [← h23]
      exact h1
    · simp only [lex_le, if_neg h12] at h1
      simp only [lex_le, if_neg h23] at h2
      by_cases h13 : a1 = a3
      · subst h13
        rw [hlt_asym a2 a1 h2] at h1
        cases h1
      · simp only [lex_le, if_neg h13]
        exact hlt_trans a1 a2 a3 h1 h2

theorem lex_le_antisymm {α β : Type} [DecidableEq α] (lt : α → α → Bool) (le2 : β → β → Bool)
    (hlt_asym : ∀ a b, lt a b = true → lt b a = false)
    (hle2_antisymm : ∀ a b, le2 a b = true → le2 b a = true → a = b) :
    ∀ x y, lex_le lt le2 x y = true → lex_le lt le2 y x = true → x = y := by
  rintro ⟨a1, b1⟩ ⟨a2, b2⟩ h1 h2
  by_cases h : a1 = a2
  · subst h
    simp only [lex_le, if_pos rfl] at h1 h2
    rw [hle2_antisymm b1 b2 h1 h2]
  · simp only [lex_le, if_neg h] at h1
    simp only [lex_le, if_neg (Ne.symm h)] at h2
    rw [hlt_asym a1 a2 h1] at h2
    cases h2

theorem stable_key_injective : ∀ a b : ExportedSymbol, stable_key a = stable_key b → a = b := by
  intro a b h
  cases a <;> cases b <;> simp_all [stable_key]

theorem compare_stable_total : ∀ a b : ExportedSymbol,
    compare_stable a b = true ∨ compare_stable b a = true :=
  fun a b =>
    lex_le_total nat_lt (lex_le nat_lt (lex_le subst_lt str_le)) nat_lt_conn
      (lex_le_total nat_lt (lex_le subst_lt str_le) nat_lt_conn
        (lex_le_total subst_lt str_le subst_lt_conn str_le_total))
      (stable_key a) (stable_key b)

theorem compare_stable_trans : ∀ a b c : ExportedSymbol,
    compare_stable a b = true → compare_stable b c = true → compare_stable a c = true :=
  fun a b c =>
    lex_le_trans nat_lt (lex_le nat_lt (lex_le subst_lt str_le)) nat_lt_asym nat_lt_trans
      (lex_le_trans nat_lt (lex_le subst_lt str_le) nat_lt_asym nat_lt_trans
        (lex_le_trans subst_lt str_le subst_lt_asym subst_lt_trans str_le_trans))
      (stable_key a) (stable_key b) (stable_key c)

theorem compare_stable_antisymm : ∀ a b : ExportedSymbol,
    compare_stable a b = true → compare_stable b a = true → a = b :=
  fun a b h1 h2 =>
    stable_key_injective a b
      (lex_le_antisymm nat_lt (lex_le nat_lt (lex_le subst_lt str_le)) nat_lt_asym
        (lex_le_antisymm nat_lt (lex_le subst_lt str_le) nat_lt_asym
          (lex_le_antisymm subst_lt str_le subst_lt_asym str_le_antisymm))
        (stable_key a) (stable_key b) h1 h2)

theorem record_le_total_bool : ∀ a b : ExportedSymbol × SymbolExportLevel,
    (record_le a b || record_le b a) = true := by
  intro a b
  rcases compare_stable_total a.1 b.1 with h | h <;> simp [record_le, h]

theorem record_le_trans : ∀ a b c : ExportedSymbol × SymbolExportLevel,
    record_le a b = true → record_le b c = true → record_le a c = true :=
  fun a b c h1 h2 => compare_stable_trans a.1 b.1 c.1 h1 h2

theorem eq_of_perm_of_pairwise_on {γ : Type} (r : γ → γ → Prop) :
    ∀ (l1 l2 : List γ), l1.Perm l2 → l1.Pairwise r → l2.Pairwise r →
    (∀ a ∈ l1, ∀ b ∈ l1, r a b → r b a → a = b) → l1 = l2 := by
  intro l1
  induction l1 with
  | nil =>
    intro l2 hp _ _ _
    exact (hp.symm.eq_nil).symm
  | cons a t1 ih =>
    intro l2 hp hs1 hs2 hanti
    cases l2 with
    | nil => exact absurd hp.eq_nil (by simp)
    | cons b t2 =>
      have hab : a = b := by
        by_cases he : a = b
        · exact he
        · have hbmem : b ∈ a :: t1 := hp.mem_iff.mpr (List.mem_cons_self b t2)
          have hbt1 : b ∈ t1 := by
            rcases List.mem_cons.mp hbmem with h | h
            · exact absurd h.symm he
            · exact h
          have hamem : a ∈ b :: t2 := hp.mem_iff.mp (List.mem_cons_self a t1)
          have hat2 : a ∈ t2 := by
            rcases List.mem_cons.mp hamem with h | h
            · exact absurd h he
            · exact h
          have hrab : r a b := (List.pairwise_cons.mp hs1).1 b hbt1
          have hrba : r b a := (List.pairwise_cons.mp hs2).1 a hat2
          exact hanti a (List.mem_cons_self a t1) b hbmem hrab hrba
      subst hab
      have htperm : t1.Perm t2 := hp.cons_inv
      have hrec := ih t2 htperm (List.pairwise_cons.mp hs1).2 (List.pairwise_cons.mp hs2).2
        (fun x hx y hy => hanti x (List.mem_cons_of_mem a hx) y (List.mem_cons_of_mem a hy))
      rw [hrec]

/-- C3: table construction and the ownership reduction are pure functions
(rerunning them on fixed inputs gives identical results); the table is sorted
by the stable symbol comparator, and its order is a function of the symbol
records alone: any assembly order with the same records sorts to the same
table. -/
theorem C3_determinism_and_stable_order (ectx : ExpCtx) (cnums : List CrateNum)
    (exported : CrateNum → List (ExportedSymbol × SymbolExportLevel))
    (fp : CrateNum → Fingerprint) :
    exported_symbols_provider_local ectx = exported_symbols_provider_local ectx ∧
    upstream_monomorphizations_provider cnums exported fp
      = upstream_monomorphizations_provider cnums exported fp ∧
    List.Pairwise (fun a b => record_le a b = true) (exported_symbols_provider_local ectx) ∧
    (∀ ectx2 : ExpCtx, (assemble_symbols ectx2).Perm (assemble_symbols ectx) →
      ectx2.reach.should_trans = ectx.reach.should_trans →
      (∀ p ∈ assemble_symbols ectx, ∀ q ∈ assemble_symbols ectx, p.1 = q.1 → p = q) →
      exported_symbols_provider_local ectx2 = exported_symbols_provider_local ectx) := by
  refine ⟨rfl, rfl, ?_, ?_⟩
  · cases htrans : ectx.reach.should_trans with
    | false =>
      unfold exported_symbols_provider_local
      rw [htrans]
      simp
    | true =>
      rw [exported_symbols_eq_mergeSort ectx htrans]
      exact List.sorted_mergeSort record_le_trans record_le_total_bool _
  · intro ectx2 hperm htr hanti
    cases htrans : ectx.reach.should_trans with
    | false =>
      have ht2 : ectx2.reach.should_trans = false := by rw [htr, htrans]
      unfold exported_symbols_provider_local
      rw [htrans, ht2]
      simp
    | true =>
      have ht2 : ectx2.reach.should_trans = true := by rw [htr, htrans]
      rw [exported_symbols_eq_mergeSort ectx htrans, exported_symbols_eq_mergeSort ectx2 ht2]
      apply eq_of_perm_of_pairwise_on (fun a b => record_le a b = true)
      · exact ((List.mergeSort_perm _ _).trans hperm).trans (List.mergeSort_perm _ _).symm
      · exact List.sorted_mergeSort record_le_trans record_le_total_bool _
      · exact List.sorted_mergeSort record_le_trans record_le_total_bool _
      · intro x hx y hy hxy hyx
        have hx2 : x ∈ assemble_symbols ectx := hperm.mem_iff.mp (List.mem_mergeSort.mp hx)
        have hy2 : y ∈ assemble_symbols ectx := hperm.mem_iff.mp (List.mem_mergeSort.mp hy)
        exact hanti x hx2 y hy2 (compare_stable_antisymm x.1 y.1 hxy hyx)

/-- C3 witness: the concrete table of ectxW1 is sorted by the stable
comparator. -/
theorem C3_determinism_and_stable_order_witness :
    List.Pairwise (fun a b => record_le a b = true)
      (exported_symbols_provider_local ectxW1) :=
  (C3_determinism_and_stable_order ectxW1 [] (fun _ => []) (fun c => c)).2.2.1

end SymbolExport
